import Mathlib

/-!
Shallow embedding of the regex engine in `src/src/main.rs`
(Josh-zjx/Codecrafters-grep-rust), together with theorems settling the
frozen claims about its specification.

Modelling conventions:
* Rust `&str` text is modelled as `List Char`; `input_line.len()` becomes
  `text.length` and `input_line.chars().nth(i)` becomes `text.get? i`
  (the source only ever runs on ASCII lines, where byte length and char
  count coincide).
* `char::is_numeric` / `char::is_alphanumeric` are modelled by
  `Char.isDigit` / `Char.isAlphanum` (their ASCII fragments, which is the
  fragment exercised by the program).
* `HashMap<usize, String>` is modelled as an association list consulted
  front-to-back, so `insert` is modelled by consing (the most recent
  binding shadows older ones, matching HashMap overwrite semantics).
* `HashSet<char>` is modelled as a `List Char` with duplicate-free insert;
  only membership is ever observed.
* A panicking `unwrap` / `panic!` is modelled by an explicit `panic`
  result constructor.
* The Rust recursion carries no fuel; the Lean model adds an explicit
  fuel parameter (`none` = fuel exhausted) so that every definition is a
  total computable function.  Fuel is threaded exactly along the Rust
  call tree: each nested `try_match` call receives the decremented fuel.
* The `println!` debug statements have no effect on any returned value
  and are not modelled.
-/

namespace GrepModel

/-- Rust `enum OCCURENCE` (quantifier of a pattern node). -/
inductive OCCURENCE where
  | Optional
  | Once
  | OnceOrMore
deriving DecidableEq, Repr

mutual
/-- Rust `enum ALLOWABLE` (the atom of a pattern node). -/
inductive ALLOWABLE where
  | Digit
  | Alnum
  | Wildcard
  | StartOfString
  | EndOfString
  | CharSet (s : List Char)
  | NegCharSet (s : List Char)
  | Group (ps : List Pattern)
  | Capture (n : Nat)

/-- Rust `struct Pattern { allowable, repeat, next, capture_count }`. -/
inductive Pattern where
  | mk (allowable : ALLOWABLE) (rep : OCCURENCE) (next : Option Pattern)
      (capture_count : Nat)
end

/-- Projection for the `allowable` field. -/
def Pattern.allowable : Pattern → ALLOWABLE
  | .mk a _ _ _ => a

/-- The `self.allowable != ALLOWABLE::EndOfString` test of the bounds
check (Rust `PartialEq`), as a Boolean discriminator. -/
def ALLOWABLE.isEndOfString : ALLOWABLE → Bool
  | .EndOfString => true
  | _ => false

/-- Projection for the `repeat` field (named `rep` here; `repeat` is a Lean keyword). -/
def Pattern.rep : Pattern → OCCURENCE
  | .mk _ r _ _ => r

/-- Projection for the `next` field. -/
def Pattern.next : Pattern → Option Pattern
  | .mk _ _ n _ => n

/-- Projection for the `capture_count` field. -/
def Pattern.capture_count : Pattern → Nat
  | .mk _ _ _ c => c

/-- Rust `struct CaptureState { captured, counter }`. -/
structure CaptureState where
  captured : List (Nat × List Char)
  counter : Nat
deriving DecidableEq, Repr

/-- `HashMap::get` / `contains_key`: first binding for the key wins. -/
def lookupCap : List (Nat × List Char) → Nat → Option (List Char)
  | [], _ => none
  | (k, v) :: rest, n => if k = n then some v else lookupCap rest n

/-- `cs.captured.insert(k, v)`: the new binding shadows any older one. -/
def CaptureState.insert (cs : CaptureState) (k : Nat) (v : List Char) :
    CaptureState :=
  { cs with captured := (k, v) :: cs.captured }

/-- Result of one `try_match` call: `ok success end_index captures`
(Rust returns `(bool, usize)` and mutates `cs` in place; the model
returns the final capture state explicitly), or `panic` for a
panicking `unwrap`. -/
inductive MatchRes where
  | ok (success : Bool) (idx : Nat) (cs : CaptureState)
  | panic
deriving DecidableEq, Repr

/-- `input_line[index..end]` on the char-list model. -/
def strSlice (text : List Char) (a b : Nat) : List Char :=
  (text.drop a).take (b - a)

/-- The backreference comparison loop (`for c in captured.chars()`):
compares `captured` against the text starting at `index`, advancing once
per character without re-checking bounds.  `none` models the panicking
`unwrap` when `index` runs past the end of the text. -/
def capLoop : List Char → List Char → Nat → Option (Bool × Nat)
  | [], _, index => some (true, index)
  | c :: rest, text, index =>
    match text.get? index with
    | none => none
    | some tc => if c ≠ tc then some (false, index) else capLoop rest text (index + 1)

/-- Step 5 of `try_match`: delegate to `next`, or succeed at the current
index when the chain is exhausted.  `tm` is the recursive `try_match`
call at the already-decremented fuel. -/
def contOrDone (tm : Pattern → Nat → CaptureState → Option MatchRes)
    (p : Pattern) (index : Nat) (cs : CaptureState) : Option MatchRes :=
  match p.next with
  | some nxt => tm nxt index cs
  | none => some (.ok true index cs)

/-- Step 4 of `try_match`: greedy `OnceOrMore` self-extension before the
continuation. -/
def afterConsume (tm : Pattern → Nat → CaptureState → Option MatchRes)
    (p : Pattern) (index : Nat) (cs : CaptureState) : Option MatchRes :=
  if p.rep = .OnceOrMore then
    match tm p index cs with
    | none => none
    | some .panic => some .panic
    | some (.ok true e cs2) => some (.ok true e cs2)
    | some (.ok false _ cs2) => contOrDone tm p index cs2
  else contOrDone tm p index cs

/-- The `ALLOWABLE::Group` arm: try each alternative in order; after a
body match record the capture and attempt the group's continuation; when
the continuation fails, keep iterating over the remaining alternatives
with the mutated capture state. -/
def groupLoop (tm : Pattern → Nat → CaptureState → Option MatchRes)
    (self : Pattern) (text : List Char) :
    List Pattern → Nat → CaptureState → Option MatchRes
  | [], index, cs => some (.ok false index cs)
  | sub :: rest, index, cs =>
    match tm sub index cs with
    | none => none
    | some .panic => some .panic
    | some (.ok false _ cs1) => groupLoop tm self text rest index cs1
    | some (.ok true e cs1) =>
      let cs2 := cs1.insert self.capture_count (strSlice text index e)
      match self.next with
      | some nxt =>
        match tm nxt e cs2 with
        | none => none
        | some .panic => some .panic
        | some (.ok true e2 cs3) => some (.ok true e2 cs3)
        | some (.ok false _ cs3) => groupLoop tm self text rest index cs3
      | none => some (.ok true e cs2)

/-- Step 3 of `try_match`: consume the atom, then fall through to the
`OnceOrMore` / continuation steps (the Group arm returns directly, as in
the source). -/
def tryAtom (tm : Pattern → Nat → CaptureState → Option MatchRes)
    (p : Pattern) (text : List Char) (index : Nat) (cs : CaptureState) :
    Option MatchRes :=
  match p.allowable with
  | .Digit =>
    match text.get? index with
    | none => some .panic
    | some c =>
      if ¬ c.isDigit then some (.ok false index cs)
      else afterConsume tm p (index + 1) cs
  | .Alnum =>
    match text.get? index with
    | none => some .panic
    | some c =>
      if ¬ c.isAlphanum then some (.ok false index cs)
      else afterConsume tm p (index + 1) cs
  | .Wildcard => afterConsume tm p (index + 1) cs
  | .CharSet s =>
    match text.get? index with
    | none => some .panic
    | some c =>
      if ¬ s.contains c then some (.ok false index cs)
      else afterConsume tm p (index + 1) cs
  | .NegCharSet s =>
    match text.get? index with
    | none => some .panic
    | some c =>
      if s.contains c then some (.ok false index cs)
      else afterConsume tm p (index + 1) cs
  | .StartOfString =>
    if index ≠ 0 then some (.ok false index cs) else afterConsume tm p index cs
  | .EndOfString =>
    if index ≠ text.length then some (.ok false index cs)
    else afterConsume tm p index cs
  | .Group ps => groupLoop tm p text ps index cs
  | .Capture n =>
    match lookupCap cs.captured n with
    | none => some (.ok false index cs)
    | some cap =>
      match capLoop cap text index with
      | none => some .panic
      | some (false, j) => some (.ok false j cs)
      | some (true, j) => afterConsume tm p j cs

/-- Rust `Pattern::try_match`, with an explicit fuel parameter
(`none` = fuel exhausted).  Follows the source line by line: the bounds
check, then the `Optional` continuation-first step, then atom
consumption with greedy `OnceOrMore` extension and the continuation. -/
def tryMatch : Nat → Pattern → List Char → Nat → CaptureState → Option MatchRes
  | 0, _, _, _, _ => none
  | fuel + 1, p, text, index, cs =>
    if index ≥ text.length ∧ (index > text.length ∨ p.allowable.isEndOfString = false) then
      some (.ok false index cs)
    else if p.rep = .Optional then
      match p.next with
      | none => some (.ok true index cs)
      | some nxt =>
        match tryMatch fuel nxt text index cs with
        | none => none
        | some .panic => some .panic
        | some (.ok true e cs2) => some (.ok true e cs2)
        | some (.ok false _ cs2) =>
          tryAtom (fun q i c => tryMatch fuel q text i c) p text index cs2
    else tryAtom (fun q i c => tryMatch fuel q text i c) p text index cs

/-- Result of the search driver: `found matched captures`, or `panic`
propagated from a panicking attempt. -/
inductive SearchRes where
  | found (b : Bool) (cs : CaptureState)
  | panic
deriving DecidableEq, Repr

/-- The loop of Rust `match_pattern` (`for i in 0..input_line.len()`):
the first `Nat` argument counts the loop iterations still to run
(`text.length - i`), so the loop attempts exactly the start offsets
`i, i+1, …, text.length - 1` and reports `found false` when they are
exhausted. -/
def matchFrom (fuel : Nat) (p : Pattern) (text : List Char) :
    Nat → Nat → CaptureState → Option SearchRes
  | 0, _, cs => some (.found false cs)
  | k + 1, i, cs =>
    match tryMatch fuel p text i cs with
    | none => none
    | some .panic => some .panic
    | some (.ok true _ cs2) => some (.found true cs2)
    | some (.ok false _ cs2) => matchFrom fuel p text k (i + 1) cs2

/-- Rust `match_pattern`: run the loop over the offsets
`0 .. input.length` (exclusive upper bound). -/
def match_pattern (fuel : Nat) (input : List Char) (p : Pattern)
    (cs : CaptureState) : Option SearchRes :=
  matchFrom fuel p input input.length 0 cs

/-- Result of one `parse_pattern` call: the node, the remaining
characters of the iterator, and the (counter-mutated) capture state;
`panic` models the `panic!("Illegal Input")` abort. -/
inductive ParseRes where
  | ok (p : Pattern) (rest : List Char) (cs : CaptureState)
  | panic

/-- Result of the group-alternative loop: the accumulated alternatives,
the remaining characters, and the capture state; `panic` models
`panic!("Illegal Input")`. -/
inductive AltsRes where
  | ok (ps : List Pattern) (rest : List Char) (cs : CaptureState)
  | panic

/-- `match_num.parse::<usize>()` on an already-collected digit string. -/
def digitsToNat (acc : Nat) : List Char → Nat
  | [] => acc
  | c :: rest => digitsToNat (acc * 10 + (c.toNat - '0'.toNat)) rest

/-- The `[` branch scan: consume until `]`; a `^` anywhere in the scan
marks negation; all other characters are inserted into the set.  When
the input ends before `]`, the node's `allowable` keeps its default
`Wildcard` value and the whole remainder has been consumed. -/
def scanCharset : List Char → Bool → List Char → ALLOWABLE × List Char
  | [], _, _ => (.Wildcard, [])
  | c :: rest, neg, acc =>
    if c = ']' then
      ((if neg then .NegCharSet acc else .CharSet acc), rest)
    else if c = '^' then scanCharset rest true acc
    else scanCharset rest neg (if acc.contains c then acc else c :: acc)

/-- Step 3 of `parse_pattern`: stop the chain at end of input, `|`, or
`)`, otherwise recursively parse and link the continuation.  `pp` is the
recursive `parse_pattern` call at the already-decremented fuel. -/
def parseLink (pp : List Char → CaptureState → Option ParseRes)
    (a : ALLOWABLE) (rep : OCCURENCE) (cc : Nat) (rest2 : List Char)
    (cs : CaptureState) : Option ParseRes :=
  match rest2 with
  | [] => some (.ok (.mk a rep none cc) [] cs)
  | c :: _ =>
    if c = '|' ∨ c = ')' then some (.ok (.mk a rep none cc) rest2 cs)
    else
      match pp rest2 cs with
      | none => none
      | some .panic => some .panic
      | some (.ok nextp rest3 cs2) =>
        some (.ok (.mk a rep (some nextp) cc) rest3 cs2)

/-- Step 2 of `parse_pattern`: the quantifier suffix (`+` or `?`),
shared by every atom branch, followed by the chain link of step 3. -/
def parseTail (pp : List Char → CaptureState → Option ParseRes)
    (a : ALLOWABLE) (cc : Nat) (rest : List Char) (cs : CaptureState) :
    Option ParseRes :=
  match rest with
  | '+' :: r => parseLink pp a .OnceOrMore cc r cs
  | '?' :: r => parseLink pp a .Optional cc r cs
  | _ => parseLink pp a .Once cc rest cs

/-- The `while let Some(next) = chars.next()` loop of the `(` branch:
`)` closes the group, `|` parses another alternative, anything else is
the `panic!("Illegal Input")` abort; running out of characters leaves
the loop silently.  The `Nat` argument bounds the number of loop
iterations (one character is consumed per iteration). -/
def groupAlts (pp : List Char → CaptureState → Option ParseRes) :
    Nat → List Char → CaptureState → List Pattern → Option AltsRes
  | 0, _, _, _ => none
  | _ + 1, [], cs, acc => some (.ok acc [] cs)
  | fuel + 1, next :: rest, cs, acc =>
    if next = ')' then some (.ok acc rest cs)
    else if next = '|' then
      match pp rest cs with
      | none => none
      | some .panic => some .panic
      | some (.ok sub rest2 cs2) => groupAlts pp fuel rest2 cs2 (acc ++ [sub])
    else some .panic

/-- Rust `parse_pattern`, with fuel (`none` = fuel exhausted).  Reads
one atom, then the quantifier suffix, then either stops (end of input,
`|`, or `)`) or links a recursively parsed continuation. -/
def parse_pattern : Nat → List Char → CaptureState → Option ParseRes
  | 0, _, _ => none
  | fuel + 1, chars, cs =>
    match chars with
    | [] => parseTail (parse_pattern fuel) .Wildcard 0 [] cs
    | first :: rest =>
      match first with
      | '\\' =>
        match rest with
        | [] => parseTail (parse_pattern fuel) .Wildcard 0 [] cs
        | escaped :: rest2 =>
          if escaped = 'd' then parseTail (parse_pattern fuel) .Digit 0 rest2 cs
          else if escaped = 'w' then parseTail (parse_pattern fuel) .Alnum 0 rest2 cs
          else if escaped.isDigit then
            let digits := escaped :: rest2.takeWhile (fun c => c.isDigit)
            let rest3 := rest2.dropWhile (fun c => c.isDigit)
            parseTail (parse_pattern fuel) (.Capture (digitsToNat 0 digits)) 0 rest3 cs
          else parseTail (parse_pattern fuel) .Wildcard 0 rest2 cs
      | '(' =>
        let cc := cs.counter
        let cs1 : CaptureState := { cs with counter := cs.counter + 1 }
        match parse_pattern fuel rest cs1 with
        | none => none
        | some .panic => some .panic
        | some (.ok sub rest2 cs2) =>
          match groupAlts (parse_pattern fuel) fuel rest2 cs2 [sub] with
          | none => none
          | some .panic => some .panic
          | some (.ok ps rest3 cs3) =>
            parseTail (parse_pattern fuel) (.Group ps) cc rest3 cs3
      | '[' =>
        let sc := scanCharset rest false []
        parseTail (parse_pattern fuel) sc.1 0 sc.2 cs
      | '.' => parseTail (parse_pattern fuel) .Wildcard 0 rest cs
      | '^' => parseTail (parse_pattern fuel) .StartOfString 0 rest cs
      | '$' => parseTail (parse_pattern fuel) .EndOfString 0 rest cs
      | c => parseTail (parse_pattern fuel) (.CharSet [c]) 0 rest cs

/-- Rust `make_pattern`: one `parse_pattern` call, leftover characters
ignored.  `2 * length + 2` fuel always suffices (proved below). -/
def make_pattern (pat : List Char) (cs : CaptureState) : Option ParseRes :=
  parse_pattern (2 * pat.length + 2) pat cs

/-- Rust `match_string`: build a fresh `CaptureState` with `counter = 1`,
parse the pattern with it, then run `match_pattern` over the line with
the same state. -/
def match_string (fuel : Nat) (input : List Char) (pat : List Char) :
    Option SearchRes :=
  match make_pattern pat ⟨[], 1⟩ with
  | none => none
  | some .panic => some .panic
  | some (.ok p _ cs1) => match_pattern fuel input p cs1

/-- Projection used to state search results without fixing the final
capture state. -/
def srBool : Option SearchRes → Option Bool
  | some (.found b _) => some b
  | _ => none

/-- The recursive-call contract used by the helper lemmas: indices only
move forward and stay within the text. -/
def TmIdx (text : List Char)
    (tm : Pattern → Nat → CaptureState → Option MatchRes) : Prop :=
  ∀ q i cs b j cs2, i ≤ text.length → tm q i cs = some (.ok b j cs2) →
    i ≤ j ∧ j ≤ text.length

/-- Every captured group index present in `cs` is still present in `cs2`. -/
def capsIn (cs cs2 : CaptureState) : Prop :=
  ∀ k, (lookupCap cs.captured k).isSome → (lookupCap cs2.captured k).isSome

/-- The recursive-call contract: a completed call only grows the set of
captured group indices. -/
def TmCaps (tm : Pattern → Nat → CaptureState → Option MatchRes) : Prop :=
  ∀ q i cs b j cs2, tm q i cs = some (.ok b j cs2) → capsIn cs cs2

/-- The node compiled from the pattern string `"^+"`. -/
def hatPlus : Pattern := .mk .StartOfString .OnceOrMore none 0

/-- Atoms on which a greedy `OnceOrMore` quantifier always consumes at
least one character per iteration (or, for `Group`, whose match arm
returns without ever reaching the `OnceOrMore` step). -/
def plusSafe : ALLOWABLE → Bool
  | .StartOfString => false
  | .EndOfString => false
  | .Capture _ => false
  | _ => true

mutual
/-- Patterns whose every `OnceOrMore` node sits on a `plusSafe` atom,
recursively through group alternatives and the `next` chain. -/
def goodP : Pattern → Bool
  | .mk a r n _ =>
    (if r = OCCURENCE.OnceOrMore then plusSafe a else true) && goodA a && goodN n

/-- `goodP` lifted to an atom (constraining group alternatives). -/
def goodA : ALLOWABLE → Bool
  | .Group ps => goodL ps
  | _ => true

/-- `goodP` lifted to the optional `next` field. -/
def goodN : Option Pattern → Bool
  | none => true
  | some p => goodP p

/-- `goodP` lifted to a list of group alternatives. -/
def goodL : List Pattern → Bool
  | [] => true
  | p :: rest => goodP p && goodL rest
end

/-- The recursive-call contract for the termination proof: enough fuel
relative to the measure `(length + 1 - index) * sizeOf pattern` means no
fuel exhaustion. -/
def TmTotal (text : List Char) (fuel : Nat) : Prop :=
  ∀ q i cs, goodP q = true → i ≤ text.length →
    (text.length + 1 - i) * sizeOf q ≤ fuel → tryMatch fuel q text i cs ≠ none

/-- The first alternative of the group in `"(a|ab)c"`: the chain `a`. -/
def c1alt1 : Pattern := .mk (.CharSet ['a']) .Once none 0

/-- The second alternative of the group in `"(a|ab)c"`: the chain `ab`. -/
def c1alt2 : Pattern :=
  .mk (.CharSet ['a']) .Once (some (.mk (.CharSet ['b']) .Once none 0)) 0

/-- The continuation of the group in `"(a|ab)c"`: the literal `c`. -/
def c1cont : Pattern := .mk (.CharSet ['c']) .Once none 0

/-- The compiled pattern `"(a|ab)c"` (checked against `make_pattern`). -/
def c1group : Pattern := .mk (.Group [c1alt1, c1alt2]) .Once (some c1cont) 1

/-! ### Index bounds: a `try_match` call never moves the index backwards,
and (when entered in bounds) never reports an index past the text. -/

theorem get?_some_lt {text : List Char} {i : Nat} {c : Char}
    (h : text.get? i = some c) : i < text.length := by
  by_contra hc
  push_neg at hc
  rw [List.get?_eq_none.mpr hc] at h
  exact Option.noConfusion h


theorem capLoop_idx : ∀ (cap text : List Char) (i : Nat) (b : Bool) (j : Nat),
    i ≤ text.length → capLoop cap text i = some (b, j) →
    i ≤ j ∧ j ≤ text.length := by
  intro cap
  induction cap with
  | nil =>
    intro text i b j hi h
    simp only [capLoop, Option.some.injEq, Prod.mk.injEq] at h
    obtain ⟨-, rfl⟩ := h
    exact ⟨le_refl i, hi⟩
  | cons c rest ih =>
    intro text i b j hi h
    simp only [capLoop] at h
    cases hg : text.get? i with
    | none => rw [hg] at h; exact Option.noConfusion h
    | some tc =>
      have hlt : i < text.length := get?_some_lt hg
      rw [hg] at h
      dsimp only at h
      by_cases hc : c ≠ tc
      · rw [if_pos hc] at h
        simp only [Option.some.injEq, Prod.mk.injEq] at h
        obtain ⟨-, rfl⟩ := h
        exact ⟨le_refl i, hi⟩
      · rw [if_neg hc] at h
        have := ih text (i + 1) b j hlt h
        omega

theorem contOrDone_idx {text : List Char} {tm} (htm : TmIdx text tm) :
    ∀ p i cs b j cs2, i ≤ text.length →
      contOrDone tm p i cs = some (.ok b j cs2) → i ≤ j ∧ j ≤ text.length := by
  intro p i cs b j cs2 hi h
  unfold contOrDone at h
  cases hn : p.next with
  | none =>
    rw [hn] at h
    simp only [Option.some.injEq, MatchRes.ok.injEq] at h
    obtain ⟨-, rfl, -⟩ := h
    exact ⟨le_refl i, hi⟩
  | some nxt =>
    rw [hn] at h
    exact htm nxt i cs b j cs2 hi h

theorem afterConsume_idx {text : List Char} {tm} (htm : TmIdx text tm) :
    ∀ p i cs b j cs2, i ≤ text.length →
      afterConsume tm p i cs = some (.ok b j cs2) → i ≤ j ∧ j ≤ text.length := by
  intro p i cs b j cs2 hi h
  unfold afterConsume at h
  split at h
  · cases hr : tm p i cs with
    | none => rw [hr] at h; exact Option.noConfusion h
    | some r =>
      rw [hr] at h
      cases r with
      | panic => exact absurd h (by simp)
      | ok rb re rcs =>
        cases rb with
        | true =>
          simp only [Option.some.injEq, MatchRes.ok.injEq] at h
          obtain ⟨-, rfl, -⟩ := h
          exact htm p i cs true re rcs hi hr
        | false => exact contOrDone_idx htm p i rcs b j cs2 hi h
  · exact contOrDone_idx htm p i cs b j cs2 hi h

theorem groupLoop_idx {text : List Char} {tm} (htm : TmIdx text tm) :
    ∀ self ps i cs b j cs2, i ≤ text.length →
      groupLoop tm self text ps i cs = some (.ok b j cs2) →
      i ≤ j ∧ j ≤ text.length := by
  intro self ps
  induction ps with
  | nil =>
    intro i cs b j cs2 hi h
    simp only [groupLoop, Option.some.injEq, MatchRes.ok.injEq] at h
    obtain ⟨-, rfl, -⟩ := h
    exact ⟨le_refl i, hi⟩
  | cons sub rest ih =>
    intro i cs b j cs2 hi h
    simp only [groupLoop] at h
    cases hr : tm sub i cs with
    | none => rw [hr] at h; exact Option.noConfusion h
    | some r =>
      rw [hr] at h
      cases r with
      | panic => exact absurd h (by simp)
      | ok rb re rcs =>
        cases rb with
        | false => exact ih i rcs b j cs2 hi h
        | true =>
          have hre : i ≤ re ∧ re ≤ text.length := htm sub i cs true re rcs hi hr
          dsimp only at h
          cases hn : self.next with
          | none =>
            rw [hn] at h
            simp only [Option.some.injEq, MatchRes.ok.injEq] at h
            obtain ⟨-, rfl, -⟩ := h
            exact hre
          | some nxt =>
            rw [hn] at h
            dsimp only at h
            cases hr2 : tm nxt re (rcs.insert self.capture_count (strSlice text i re)) with
            | none => rw [hr2] at h; exact Option.noConfusion h
            | some r2 =>
              rw [hr2] at h
              cases r2 with
              | panic => exact absurd h (by simp)
              | ok rb2 re2 rcs2 =>
                cases rb2 with
                | false => exact ih i rcs2 b j cs2 hi h
                | true =>
                  simp only [Option.some.injEq, MatchRes.ok.injEq] at h
                  obtain ⟨-, rfl, -⟩ := h
                  have := htm nxt re _ true re2 rcs2 hre.2 hr2
                  omega

theorem tryAtom_idx {text : List Char} {tm} (htm : TmIdx text tm) :
    ∀ p i cs b j cs2,
      (i < text.length ∨ p.allowable.isEndOfString = true) → i ≤ text.length →
      tryAtom tm p text i cs = some (.ok b j cs2) → i ≤ j ∧ j ≤ text.length := by
  intro p i cs b j cs2 hb hi h
  unfold tryAtom at h
  cases ha : p.allowable with
  | Digit =>
    rw [ha] at h
    dsimp only at h
    cases hg : text.get? i with
    | none => rw [hg] at h; exact absurd h (by simp)
    | some c =>
      have hlt := get?_some_lt hg
      rw [hg] at h; dsimp only at h
      split at h
      · simp only [Option.some.injEq, MatchRes.ok.injEq] at h
        obtain ⟨-, rfl, -⟩ := h
        exact ⟨le_refl i, hi⟩
      · have := afterConsume_idx htm p (i + 1) cs b j cs2 hlt h
        omega
  | Alnum =>
    rw [ha] at h
    dsimp only at h
    cases hg : text.get? i with
    | none => rw [hg] at h; exact absurd h (by simp)
    | some c =>
      have hlt := get?_some_lt hg
      rw [hg] at h; dsimp only at h
      split at h
      · simp only [Option.some.injEq, MatchRes.ok.injEq] at h
        obtain ⟨-, rfl, -⟩ := h
        exact ⟨le_refl i, hi⟩
      · have := afterConsume_idx htm p (i + 1) cs b j cs2 hlt h
        omega
  | Wildcard =>
    rw [ha] at h
    dsimp only at h
    have hlt : i < text.length := by
      rcases hb with hb | hb
      · exact hb
      · rw [ha] at hb; exact absurd hb (by simp [ALLOWABLE.isEndOfString])
    have := afterConsume_idx htm p (i + 1) cs b j cs2 hlt h
    omega
  | CharSet s =>
    rw [ha] at h
    dsimp only at h
    cases hg : text.get? i with
    | none => rw [hg] at h; exact absurd h (by simp)
    | some c =>
      have hlt := get?_some_lt hg
      rw [hg] at h; dsimp only at h
      split at h
      · simp only [Option.some.injEq, MatchRes.ok.injEq] at h
        obtain ⟨-, rfl, -⟩ := h
        exact ⟨le_refl i, hi⟩
      · have := afterConsume_idx htm p (i + 1) cs b j cs2 hlt h
        omega
  | NegCharSet s =>
    rw [ha] at h
    dsimp only at h
    cases hg : text.get? i with
    | none => rw [hg] at h; exact absurd h (by simp)
    | some c =>
      have hlt := get?_some_lt hg
      rw [hg] at h; dsimp only at h
      split at h
      · simp only [Option.some.injEq, MatchRes.ok.injEq] at h
        obtain ⟨-, rfl, -⟩ := h
        exact ⟨le_refl i, hi⟩
      · have := afterConsume_idx htm p (i + 1) cs b j cs2 hlt h
        omega
  | StartOfString =>
    rw [ha] at h
    dsimp only at h
    split at h
    · simp only [Option.some.injEq, MatchRes.ok.injEq] at h
      obtain ⟨-, rfl, -⟩ := h
      exact ⟨le_refl i, hi⟩
    · exact afterConsume_idx htm p i cs b j cs2 hi h
  | EndOfString =>
    rw [ha] at h
    dsimp only at h
    split at h
    · simp only [Option.some.injEq, MatchRes.ok.injEq] at h
      obtain ⟨-, rfl, -⟩ := h
      exact ⟨le_refl i, hi⟩
    · exact afterConsume_idx htm p i cs b j cs2 hi h
  | Group ps =>
    rw [ha] at h
    dsimp only at h
    exact groupLoop_idx htm p ps i cs b j cs2 hi h
  | Capture n =>
    rw [ha] at h
    dsimp only at h
    cases hl : lookupCap cs.captured n with
    | none =>
      rw [hl] at h
      simp only [Option.some.injEq, MatchRes.ok.injEq] at h
      obtain ⟨-, rfl, -⟩ := h
      exact ⟨le_refl i, hi⟩
    | some cap =>
      rw [hl] at h; dsimp only at h
      cases hcl : capLoop cap text i with
      | none => rw [hcl] at h; exact absurd h (by simp)
      | some pr =>
        rw [hcl] at h
        obtain ⟨pb, pj⟩ := pr
        have hpj := capLoop_idx cap text i pb pj hi hcl
        cases pb with
        | false =>
          dsimp only at h
          simp only [Option.some.injEq, MatchRes.ok.injEq] at h
          obtain ⟨-, rfl, -⟩ := h
          exact hpj
        | true =>
          dsimp only at h
          have := afterConsume_idx htm p pj cs b j cs2 hpj.2 h
          omega

theorem tryMatch_idx (text : List Char) :
    ∀ fuel, TmIdx text (fun q i cs => tryMatch fuel q text i cs) := by
  intro fuel
  induction fuel with
  | zero => intro q i cs b j cs2 _ h; exact Option.noConfusion h
  | succ fuel ih =>
    intro q i cs b j cs2 hi h
    simp only [tryMatch] at h
    split at h
    · simp only [Option.some.injEq, MatchRes.ok.injEq] at h
      obtain ⟨-, rfl, -⟩ := h
      exact ⟨le_refl i, hi⟩
    · rename_i hbnds
      have hb : i < text.length ∨ q.allowable.isEndOfString = true := by
        by_cases hlen : i < text.length
        · exact Or.inl hlen
        · right
          by_contra hend
          exact hbnds ⟨by omega, Or.inr (by simpa using hend)⟩
      split at h
      · cases hn : q.next with
        | none =>
          rw [hn] at h
          simp only [Option.some.injEq, MatchRes.ok.injEq] at h
          obtain ⟨-, rfl, -⟩ := h
          exact ⟨le_refl i, hi⟩
        | some nxt =>
          rw [hn] at h
          dsimp only at h
          cases hr : tryMatch fuel nxt text i cs with
          | none => rw [hr] at h; exact Option.noConfusion h
          | some r =>
            rw [hr] at h
            cases r with
            | panic => exact absurd h (by simp)
            | ok rb re rcs =>
              cases rb with
              | true =>
                simp only [Option.some.injEq, MatchRes.ok.injEq] at h
                obtain ⟨-, rfl, -⟩ := h
                exact ih nxt i cs true re rcs hi hr
              | false => exact tryAtom_idx ih q i rcs b j cs2 hb hi h
      · exact tryAtom_idx ih q i cs b j cs2 hb hi h

/-! ### Capture monotonicity: matching only ever inserts capture
entries, so every key present before a call is still present after it
(possibly with a newer value shadowing the old one). -/


theorem capsIn_refl (cs : CaptureState) : capsIn cs cs := fun _ h => h

theorem capsIn_trans {a b c : CaptureState} (h1 : capsIn a b)
    (h2 : capsIn b c) : capsIn a c := fun k h => h2 k (h1 k h)

theorem capsIn_insert (cs : CaptureState) (k : Nat) (v : List Char) :
    capsIn cs (cs.insert k v) := by
  intro k2 h
  unfold CaptureState.insert
  simp only [lookupCap]
  by_cases hk : k = k2
  · rw [if_pos hk]; rfl
  · rw [if_neg hk]; exact h


theorem contOrDone_caps {tm} (htm : TmCaps tm) :
    ∀ p i cs b j cs2, contOrDone tm p i cs = some (.ok b j cs2) →
      capsIn cs cs2 := by
  intro p i cs b j cs2 h
  unfold contOrDone at h
  cases hn : p.next with
  | none =>
    rw [hn] at h
    simp only [Option.some.injEq, MatchRes.ok.injEq] at h
    obtain ⟨-, -, rfl⟩ := h
    exact capsIn_refl cs
  | some nxt =>
    rw [hn] at h
    exact htm nxt i cs b j cs2 h

theorem afterConsume_caps {tm} (htm : TmCaps tm) :
    ∀ p i cs b j cs2, afterConsume tm p i cs = some (.ok b j cs2) →
      capsIn cs cs2 := by
  intro p i cs b j cs2 h
  unfold afterConsume at h
  split at h
  · cases hr : tm p i cs with
    | none => rw [hr] at h; exact Option.noConfusion h
    | some r =>
      rw [hr] at h
      cases r with
      | panic => exact absurd h (by simp)
      | ok rb re rcs =>
        cases rb with
        | true =>
          simp only [Option.some.injEq, MatchRes.ok.injEq] at h
          obtain ⟨-, -, rfl⟩ := h
          exact htm p i cs true re rcs hr
        | false =>
          exact capsIn_trans (htm p i cs false re rcs hr)
            (contOrDone_caps htm p i rcs b j cs2 h)
  · exact contOrDone_caps htm p i cs b j cs2 h

theorem groupLoop_caps {tm} (htm : TmCaps tm) (text : List Char) :
    ∀ self ps i cs b j cs2,
      groupLoop tm self text ps i cs = some (.ok b j cs2) →
      capsIn cs cs2 := by
  intro self ps
  induction ps with
  | nil =>
    intro i cs b j cs2 h
    simp only [groupLoop, Option.some.injEq, MatchRes.ok.injEq] at h
    obtain ⟨-, -, rfl⟩ := h
    exact capsIn_refl cs
  | cons sub rest ih =>
    intro i cs b j cs2 h
    simp only [groupLoop] at h
    cases hr : tm sub i cs with
    | none => rw [hr] at h; exact Option.noConfusion h
    | some r =>
      rw [hr] at h
      cases r with
      | panic => exact absurd h (by simp)
      | ok rb re rcs =>
        have hcs1 : capsIn cs rcs := htm sub i cs rb re rcs hr
        cases rb with
        | false => exact capsIn_trans hcs1 (ih i rcs b j cs2 h)
        | true =>
          dsimp only at h
          have hins : capsIn cs (rcs.insert self.capture_count (strSlice text i re)) :=
            capsIn_trans hcs1 (capsIn_insert rcs _ _)
          cases hn : self.next with
          | none =>
            rw [hn] at h
            simp only [Option.some.injEq, MatchRes.ok.injEq] at h
            obtain ⟨-, -, rfl⟩ := h
            exact hins
          | some nxt =>
            rw [hn] at h
            dsimp only at h
            cases hr2 : tm nxt re (rcs.insert self.capture_count (strSlice text i re)) with
            | none => rw [hr2] at h; exact Option.noConfusion h
            | some r2 =>
              rw [hr2] at h
              cases r2 with
              | panic => exact absurd h (by simp)
              | ok rb2 re2 rcs2 =>
                have hcs2 : capsIn cs rcs2 :=
                  capsIn_trans hins (htm nxt re _ rb2 re2 rcs2 hr2)
                cases rb2 with
                | false => exact capsIn_trans hcs2 (ih i rcs2 b j cs2 h)
                | true =>
                  simp only [Option.some.injEq, MatchRes.ok.injEq] at h
                  obtain ⟨-, -, rfl⟩ := h
                  exact hcs2

theorem tryAtom_caps {tm} (htm : TmCaps tm) (text : List Char) :
    ∀ p i cs b j cs2, tryAtom tm p text i cs = some (.ok b j cs2) →
      capsIn cs cs2 := by
  intro p i cs b j cs2 h
  unfold tryAtom at h
  cases ha : p.allowable with
  | Digit =>
    rw [ha] at h
    dsimp only at h
    cases hg : text.get? i with
    | none => rw [hg] at h; exact absurd h (by simp)
    | some c =>
      rw [hg] at h; dsimp only at h
      split at h
      · simp only [Option.some.injEq, MatchRes.ok.injEq] at h
        obtain ⟨-, -, rfl⟩ := h
        exact capsIn_refl cs
      · exact afterConsume_caps htm p (i + 1) cs b j cs2 h
  | Alnum =>
    rw [ha] at h
    dsimp only at h
    cases hg : text.get? i with
    | none => rw [hg] at h; exact absurd h (by simp)
    | some c =>
      rw [hg] at h; dsimp only at h
      split at h
      · simp only [Option.some.injEq, MatchRes.ok.injEq] at h
        obtain ⟨-, -, rfl⟩ := h
        exact capsIn_refl cs
      · exact afterConsume_caps htm p (i + 1) cs b j cs2 h
  | Wildcard =>
    rw [ha] at h
    dsimp only at h
    exact afterConsume_caps htm p (i + 1) cs b j cs2 h
  | CharSet s =>
    rw [ha] at h
    dsimp only at h
    cases hg : text.get? i with
    | none => rw [hg] at h; exact absurd h (by simp)
    | some c =>
      rw [hg] at h; dsimp only at h
      split at h
      · simp only [Option.some.injEq, MatchRes.ok.injEq] at h
        obtain ⟨-, -, rfl⟩ := h
        exact capsIn_refl cs
      · exact afterConsume_caps htm p (i + 1) cs b j cs2 h
  | NegCharSet s =>
    rw [ha] at h
    dsimp only at h
    cases hg : text.get? i with
    | none => rw [hg] at h; exact absurd h (by simp)
    | some c =>
      rw [hg] at h; dsimp only at h
      split at h
      · simp only [Option.some.injEq, MatchRes.ok.injEq] at h
        obtain ⟨-, -, rfl⟩ := h
        exact capsIn_refl cs
      · exact afterConsume_caps htm p (i + 1) cs b j cs2 h
  | StartOfString =>
    rw [ha] at h
    dsimp only at h
    split at h
    · simp only [Option.some.injEq, MatchRes.ok.injEq] at h
      obtain ⟨-, -, rfl⟩ := h
      exact capsIn_refl cs
    · exact afterConsume_caps htm p i cs b j cs2 h
  | EndOfString =>
    rw [ha] at h
    dsimp only at h
    split at h
    · simp only [Option.some.injEq, MatchRes.ok.injEq] at h
      obtain ⟨-, -, rfl⟩ := h
      exact capsIn_refl cs
    · exact afterConsume_caps htm p i cs b j cs2 h
  | Group ps =>
    rw [ha] at h
    dsimp only at h
    exact groupLoop_caps htm text p ps i cs b j cs2 h
  | Capture n =>
    rw [ha] at h
    dsimp only at h
    cases hl : lookupCap cs.captured n with
    | none =>
      rw [hl] at h
      simp only [Option.some.injEq, MatchRes.ok.injEq] at h
      obtain ⟨-, -, rfl⟩ := h
      exact capsIn_refl cs
    | some cap =>
      rw [hl] at h; dsimp only at h
      cases hcl : capLoop cap text i with
      | none => rw [hcl] at h; exact absurd h (by simp)
      | some pr =>
        rw [hcl] at h
        obtain ⟨pb, pj⟩ := pr
        cases pb with
        | false =>
          dsimp only at h
          simp only [Option.some.injEq, MatchRes.ok.injEq] at h
          obtain ⟨-, -, rfl⟩ := h
          exact capsIn_refl cs
        | true =>
          dsimp only at h
          exact afterConsume_caps htm p pj cs b j cs2 h

theorem tryMatch_caps (text : List Char) :
    ∀ fuel, TmCaps (fun q i cs => tryMatch fuel q text i cs) := by
  intro fuel
  induction fuel with
  | zero => intro q i cs b j cs2 h; exact Option.noConfusion h
  | succ fuel ih =>
    intro q i cs b j cs2 h
    simp only [tryMatch] at h
    split at h
    · simp only [Option.some.injEq, MatchRes.ok.injEq] at h
      obtain ⟨-, -, rfl⟩ := h
      exact capsIn_refl cs
    · split at h
      · cases hn : q.next with
        | none =>
          rw [hn] at h
          simp only [Option.some.injEq, MatchRes.ok.injEq] at h
          obtain ⟨-, -, rfl⟩ := h
          exact capsIn_refl cs
        | some nxt =>
          rw [hn] at h
          dsimp only at h
          cases hr : tryMatch fuel nxt text i cs with
          | none => rw [hr] at h; exact Option.noConfusion h
          | some r =>
            rw [hr] at h
            cases r with
            | panic => exact absurd h (by simp)
            | ok rb re rcs =>
              cases rb with
              | true =>
                simp only [Option.some.injEq, MatchRes.ok.injEq] at h
                obtain ⟨-, -, rfl⟩ := h
                exact ih nxt i cs true re rcs hr
              | false =>
                exact capsIn_trans (ih nxt i cs false re rcs hr)
                  (tryAtom_caps ih text q i rcs b j cs2 h)
      · exact tryAtom_caps ih text q i cs b j cs2 h

/-- Capture monotonicity across the start-offset loop of
`match_pattern`: failed attempts at earlier offsets leave their capture
entries in place for later attempts. -/
theorem matchFrom_caps (fuel : Nat) (p : Pattern) (text : List Char) :
    ∀ k i cs b cs2, matchFrom fuel p text k i cs = some (.found b cs2) →
      capsIn cs cs2 := by
  intro k
  induction k with
  | zero =>
    intro i cs b cs2 h
    simp only [matchFrom, Option.some.injEq, SearchRes.found.injEq] at h
    obtain ⟨-, rfl⟩ := h
    exact capsIn_refl cs
  | succ k ih =>
    intro i cs b cs2 h
    simp only [matchFrom] at h
    cases hr : tryMatch fuel p text i cs with
    | none => rw [hr] at h; exact Option.noConfusion h
    | some r =>
      rw [hr] at h
      cases r with
      | panic => exact absurd h (by simp)
      | ok rb re rcs =>
        have hcs1 : capsIn cs rcs := tryMatch_caps text fuel p i cs rb re rcs hr
        cases rb with
        | true =>
          simp only [Option.some.injEq, SearchRes.found.injEq] at h
          obtain ⟨-, rfl⟩ := h
          exact hcs1
        | false => exact capsIn_trans hcs1 (ih (i + 1) rcs b cs2 h)

/-! ### Parser metatheory: each `parse_pattern` call consumes input,
stops only at `|`, `)` or end of input, and — with enough fuel — always
returns a pattern: it neither exhausts the fuel nor reaches the
`panic!("Illegal Input")` branch. -/

theorem hatPlus_diverges :
    ∀ (fuel : Nat) (text : List Char) (cs : CaptureState), text ≠ [] →
      tryMatch fuel hatPlus text 0 cs = none := by
  intro fuel
  induction fuel with
  | zero => intro text cs _; rfl
  | succ fuel ih =>
    intro text cs hne
    have hlen : 0 < text.length := List.length_pos.mpr hne
    simp only [tryMatch, hatPlus]
    rw [if_neg (by rintro ⟨h1, -⟩; omega)]
    rw [if_neg (by simp [Pattern.rep])]
    simp only [tryAtom, Pattern.allowable]
    rw [if_neg (by omega)]
    simp only [afterConsume, Pattern.rep, if_true, ite_true, if_pos]
    have ih2 := ih text cs hne
    unfold hatPlus at ih2
    rw [ih2]



theorem goodP_destruct {a r n c} (h : goodP (.mk a r n c) = true) :
    (r = OCCURENCE.OnceOrMore → plusSafe a = true) ∧ goodA a = true ∧
      goodN n = true := by
  simp only [goodP, Bool.and_eq_true] at h
  refine ⟨fun hr => ?_, h.1.2, h.2⟩
  have := h.1.1
  rw [if_pos hr] at this
  exact this

theorem goodL_mem : ∀ {ps : List Pattern}, goodL ps = true →
    ∀ sub ∈ ps, goodP sub = true := by
  intro ps
  induction ps with
  | nil => intro _ sub hsub; exact absurd hsub (List.not_mem_nil sub)
  | cons q rest ih =>
    intro h sub hsub
    simp only [goodL, Bool.and_eq_true] at h
    rcases List.mem_cons.mp hsub with rfl | hmem
    · exact h.1
    · exact ih h.2 sub hmem

theorem one_le_sizeOf_pattern (p : Pattern) : 1 ≤ sizeOf p := by
  cases p with
  | mk a n c => simp only [Pattern.mk.sizeOf_spec]; omega

theorem sizeOf_next_lt {a r c} (nxt : Pattern) :
    sizeOf nxt < sizeOf (Pattern.mk a r (some nxt) c) := by
  simp [Pattern.mk.sizeOf_spec]
  omega

theorem sizeOf_group_mem_lt {ps : List Pattern} {sub : Pattern}
    (h : sub ∈ ps) {r : OCCURENCE} {n : Option Pattern} {c : Nat} :
    sizeOf sub < sizeOf (Pattern.mk (.Group ps) r n c) := by
  have := List.sizeOf_lt_of_mem h
  simp [Pattern.mk.sizeOf_spec, ALLOWABLE.Group.sizeOf_spec]
  omega

theorem mu_child_le {L i j fuel sp sc : Nat} (hij : i ≤ j) (hjL : j ≤ L)
    (hiL : i ≤ L) (hsc : sc < sp) (h : (L + 1 - i) * sp ≤ fuel + 1) :
    (L + 1 - j) * sc ≤ fuel := by
  have h1 : (L + 1 - j) * sc ≤ (L + 1 - i) * sc :=
    Nat.mul_le_mul_right sc (by omega)
  have h2 : (L + 1 - i) * sc + (L + 1 - i) ≤ (L + 1 - i) * sp := by
    calc (L + 1 - i) * sc + (L + 1 - i) = (L + 1 - i) * (sc + 1) := by ring
    _ ≤ (L + 1 - i) * sp := Nat.mul_le_mul_left _ hsc
  have h3 : 1 ≤ L + 1 - i := by omega
  omega

theorem mu_self_le {L i fuel sp : Nat} (hiL : i < L) (hsp : 1 ≤ sp)
    (h : (L + 1 - i) * sp ≤ fuel + 1) : (L + 1 - (i + 1)) * sp ≤ fuel := by
  have he : L + 1 - i = (L + 1 - (i + 1)) + 1 := by omega
  rw [he] at h
  have : ((L + 1 - (i + 1)) + 1) * sp = (L + 1 - (i + 1)) * sp + sp := by ring
  omega

theorem goodP_next (p : Pattern) (h : goodP p = true) : goodN p.next = true := by
  cases p with
  | mk a r n c => simpa [Pattern.next] using (goodP_destruct h).2.2

theorem goodP_plusSafe (p : Pattern) (h : goodP p = true)
    (hr : p.rep = .OnceOrMore) : plusSafe p.allowable = true := by
  cases p with
  | mk a r n c =>
    simp only [Pattern.rep] at hr
    simpa [Pattern.allowable] using (goodP_destruct h).1 hr

theorem goodP_group_mem (p : Pattern) {ps : List Pattern}
    (h : goodP p = true) (ha : p.allowable = .Group ps) :
    ∀ sub ∈ ps, goodP sub = true := by
  cases p with
  | mk a r n c =>
    simp only [Pattern.allowable] at ha
    subst ha
    have := (goodP_destruct h).2.1
    exact goodL_mem (by simpa [goodA] using this)

theorem sizeOf_next_lt' {p nxt : Pattern} (h : p.next = some nxt) :
    sizeOf nxt < sizeOf p := by
  cases p with
  | mk a r n c =>
    simp only [Pattern.next] at h
    subst h
    exact sizeOf_next_lt nxt

theorem sizeOf_group_mem_lt' {p : Pattern} {ps : List Pattern}
    (ha : p.allowable = .Group ps) {sub : Pattern} (h : sub ∈ ps) :
    sizeOf sub < sizeOf p := by
  cases p with
  | mk a r n c =>
    simp only [Pattern.allowable] at ha
    subst ha
    exact sizeOf_group_mem_lt h


theorem contOrDone_total {text : List Char} {fuel : Nat}
    (htm : TmTotal text fuel) :
    ∀ p j cs, goodN p.next = true → j ≤ text.length →
      (∀ nxt, p.next = some nxt →
        (text.length + 1 - j) * sizeOf nxt ≤ fuel) →
      contOrDone (fun q i c => tryMatch fuel q text i c) p j cs ≠ none := by
  intro p j cs hg hj hb hnone
  unfold contOrDone at hnone
  dsimp only at hnone
  cases hn : p.next with
  | none => rw [hn] at hnone; exact Option.noConfusion hnone
  | some nxt =>
    rw [hn] at hnone
    rw [hn] at hg
    exact htm nxt j cs (by simpa [goodN] using hg) hj (hb nxt hn) hnone

theorem afterConsume_total {text : List Char} {fuel : Nat}
    (htm : TmTotal text fuel) :
    ∀ p j cs, goodP p = true → j ≤ text.length →
      (p.rep = .OnceOrMore → (text.length + 1 - j) * sizeOf p ≤ fuel) →
      (∀ nxt, p.next = some nxt →
        (text.length + 1 - j) * sizeOf nxt ≤ fuel) →
      afterConsume (fun q i c => tryMatch fuel q text i c) p j cs ≠ none := by
  intro p j cs hgood hj hself hnxt hnone
  unfold afterConsume at hnone
  dsimp only at hnone
  split at hnone
  · rename_i hrep
    cases hr : tryMatch fuel p text j cs with
    | none => exact htm p j cs hgood hj (hself hrep) hr
    | some r =>
      rw [hr] at hnone
      cases r with
      | panic => exact Option.noConfusion hnone
      | ok rb re rcs =>
        cases rb with
        | true => exact Option.noConfusion hnone
        | false =>
          exact contOrDone_total htm p j rcs (goodP_next p hgood) hj hnxt hnone
  · exact contOrDone_total htm p j cs (goodP_next p hgood) hj hnxt hnone

theorem groupLoop_total {text : List Char} {fuel : Nat}
    (htm : TmTotal text fuel) :
    ∀ p ps i cs, i ≤ text.length →
      (∀ sub ∈ ps, goodP sub = true) →
      (∀ sub ∈ ps, (text.length + 1 - i) * sizeOf sub ≤ fuel) →
      goodN p.next = true →
      (∀ nxt, p.next = some nxt →
        (text.length + 1 - i) * sizeOf nxt ≤ fuel) →
      groupLoop (fun q i c => tryMatch fuel q text i c) p text ps i cs ≠ none := by
  intro p ps
  induction ps with
  | nil => intro i cs _ _ _ _ _ hnone; exact Option.noConfusion hnone
  | cons sub rest ih =>
    intro i cs hi hgood hmu hgn hnx hnone
    simp only [groupLoop] at hnone
    cases hr : tryMatch fuel sub text i cs with
    | none =>
      exact htm sub i cs (hgood sub (List.mem_cons_self sub rest)) hi
        (hmu sub (List.mem_cons_self sub rest)) hr
    | some r =>
      rw [hr] at hnone
      cases r with
      | panic => exact Option.noConfusion hnone
      | ok rb re rcs =>
        cases rb with
        | false =>
          exact ih i rcs hi (fun s hs => hgood s (List.mem_cons_of_mem _ hs))
            (fun s hs => hmu s (List.mem_cons_of_mem _ hs)) hgn hnx hnone
        | true =>
          dsimp only at hnone
          have hre := tryMatch_idx text fuel sub i cs true re rcs hi hr
          cases hn : p.next with
          | none => rw [hn] at hnone; exact Option.noConfusion hnone
          | some nxt =>
            rw [hn] at hnone
            dsimp only at hnone
            cases hr2 : tryMatch fuel nxt text re
                (rcs.insert p.capture_count (strSlice text i re)) with
            | none =>
              have hgnxt : goodP nxt = true := by
                rw [hn] at hgn; simpa [goodN] using hgn
              have hmu2 : (text.length + 1 - re) * sizeOf nxt ≤ fuel := by
                have hb := hnx nxt hn
                have hmono : (text.length + 1 - re) * sizeOf nxt ≤
                    (text.length + 1 - i) * sizeOf nxt :=
                  Nat.mul_le_mul_right _ (by omega)
                omega
              exact htm nxt re _ hgnxt hre.2 hmu2 hr2
            | some r2 =>
              rw [hr2] at hnone
              cases r2 with
              | panic => exact Option.noConfusion hnone
              | ok rb2 re2 rcs2 =>
                cases rb2 with
                | true => exact Option.noConfusion hnone
                | false =>
                  exact ih i rcs2 hi
                    (fun s hs => hgood s (List.mem_cons_of_mem _ hs))
                    (fun s hs => hmu s (List.mem_cons_of_mem _ hs)) hgn hnx hnone

theorem tryAtom_total {text : List Char} {fuel : Nat}
    (htm : TmTotal text fuel) :
    ∀ p i cs, goodP p = true →
      (i < text.length ∨ p.allowable.isEndOfString = true) →
      i ≤ text.length →
      (text.length + 1 - i) * sizeOf p ≤ fuel + 1 →
      tryAtom (fun q i c => tryMatch fuel q text i c) p text i cs ≠ none := by
  intro p i cs hgood hb hi hmu hnone
  unfold tryAtom at hnone
  cases ha : p.allowable with
  | Digit =>
    rw [ha] at hnone
    dsimp only at hnone
    cases hg : text.get? i with
    | none => rw [hg] at hnone; exact Option.noConfusion hnone
    | some ch =>
      have hlt := get?_some_lt hg
      rw [hg] at hnone; dsimp only at hnone
      split at hnone
      · exact Option.noConfusion hnone
      · refine afterConsume_total htm p (i + 1) cs hgood (by omega) ?_ ?_ hnone
        · intro _
          exact mu_self_le hlt (one_le_sizeOf_pattern p) hmu
        · intro nxt hn
          exact mu_child_le (Nat.le_succ i) (by omega) hi (sizeOf_next_lt' hn) hmu
  | Alnum =>
    rw [ha] at hnone
    dsimp only at hnone
    cases hg : text.get? i with
    | none => rw [hg] at hnone; exact Option.noConfusion hnone
    | some ch =>
      have hlt := get?_some_lt hg
      rw [hg] at hnone; dsimp only at hnone
      split at hnone
      · exact Option.noConfusion hnone
      · refine afterConsume_total htm p (i + 1) cs hgood (by omega) ?_ ?_ hnone
        · intro _
          exact mu_self_le hlt (one_le_sizeOf_pattern p) hmu
        · intro nxt hn
          exact mu_child_le (Nat.le_succ i) (by omega) hi (sizeOf_next_lt' hn) hmu
  | Wildcard =>
    rw [ha] at hnone
    dsimp only at hnone
    have hlt : i < text.length := by
      rcases hb with hb | hb
      · exact hb
      · rw [ha] at hb; exact absurd hb (by simp [ALLOWABLE.isEndOfString])
    refine afterConsume_total htm p (i + 1) cs hgood (by omega) ?_ ?_ hnone
    · intro _
      exact mu_self_le hlt (one_le_sizeOf_pattern p) hmu
    · intro nxt hn
      exact mu_child_le (Nat.le_succ i) (by omega) hi (sizeOf_next_lt' hn) hmu
  | CharSet s =>
    rw [ha] at hnone
    dsimp only at hnone
    cases hg : text.get? i with
    | none => rw [hg] at hnone; exact Option.noConfusion hnone
    | some ch =>
      have hlt := get?_some_lt hg
      rw [hg] at hnone; dsimp only at hnone
      split at hnone
      · exact Option.noConfusion hnone
      · refine afterConsume_total htm p (i + 1) cs hgood (by omega) ?_ ?_ hnone
        · intro _
          exact mu_self_le hlt (one_le_sizeOf_pattern p) hmu
        · intro nxt hn
          exact mu_child_le (Nat.le_succ i) (by omega) hi (sizeOf_next_lt' hn) hmu
  | NegCharSet s =>
    rw [ha] at hnone
    dsimp only at hnone
    cases hg : text.get? i with
    | none => rw [hg] at hnone; exact Option.noConfusion hnone
    | some ch =>
      have hlt := get?_some_lt hg
      rw [hg] at hnone; dsimp only at hnone
      split at hnone
      · exact Option.noConfusion hnone
      · refine afterConsume_total htm p (i + 1) cs hgood (by omega) ?_ ?_ hnone
        · intro _
          exact mu_self_le hlt (one_le_sizeOf_pattern p) hmu
        · intro nxt hn
          exact mu_child_le (Nat.le_succ i) (by omega) hi (sizeOf_next_lt' hn) hmu
  | StartOfString =>
    rw [ha] at hnone
    dsimp only at hnone
    split at hnone
    · exact Option.noConfusion hnone
    · refine afterConsume_total htm p i cs hgood hi ?_ ?_ hnone
      · intro hrep
        have := goodP_plusSafe p hgood hrep
        rw [ha] at this
        exact absurd this (by simp [plusSafe])
      · intro nxt hn
        exact mu_child_le (le_refl i) hi hi (sizeOf_next_lt' hn) hmu
  | EndOfString =>
    rw [ha] at hnone
    dsimp only at hnone
    split at hnone
    · exact Option.noConfusion hnone
    · refine afterConsume_total htm p i cs hgood hi ?_ ?_ hnone
      · intro hrep
        have := goodP_plusSafe p hgood hrep
        rw [ha] at this
        exact absurd this (by simp [plusSafe])
      · intro nxt hn
        exact mu_child_le (le_refl i) hi hi (sizeOf_next_lt' hn) hmu
  | Group ps =>
    rw [ha] at hnone
    dsimp only at hnone
    refine groupLoop_total htm p ps i cs hi (goodP_group_mem p hgood ha) ?_
      (goodP_next p hgood) ?_ hnone
    · intro sub hs
      exact mu_child_le (le_refl i) hi hi (sizeOf_group_mem_lt' ha hs) hmu
    · intro nxt hn
      exact mu_child_le (le_refl i) hi hi (sizeOf_next_lt' hn) hmu
  | Capture n =>
    rw [ha] at hnone
    dsimp only at hnone
    cases hl : lookupCap cs.captured n with
    | none => rw [hl] at hnone; exact Option.noConfusion hnone
    | some cap =>
      rw [hl] at hnone; dsimp only at hnone
      cases hcl : capLoop cap text i with
      | none => rw [hcl] at hnone; exact Option.noConfusion hnone
      | some pr =>
        rw [hcl] at hnone
        obtain ⟨pb, pj⟩ := pr
        have hpj := capLoop_idx cap text i pb pj hi hcl
        cases pb with
        | false => dsimp only at hnone; exact Option.noConfusion hnone
        | true =>
          dsimp only at hnone
          refine afterConsume_total htm p pj cs hgood hpj.2 ?_ ?_ hnone
          · intro hrep
            have := goodP_plusSafe p hgood hrep
            rw [ha] at this
            exact absurd this (by simp [plusSafe])
          · intro nxt hn
            exact mu_child_le hpj.1 hpj.2 hi (sizeOf_next_lt' hn) hmu

/-- With enough fuel relative to the measure
`(length + 1 - index) * sizeOf pattern`, `try_match` on a `goodP`
pattern never exhausts its fuel: the recursion terminates. -/
theorem tryMatch_total (text : List Char) : ∀ fuel, TmTotal text fuel := by
  intro fuel
  induction fuel with
  | zero =>
    intro q i cs _ hi hmu
    have h1 : 1 ≤ text.length + 1 - i := by omega
    have h2 : 1 ≤ sizeOf q := one_le_sizeOf_pattern q
    have h3 : 1 * 1 ≤ (text.length + 1 - i) * sizeOf q := Nat.mul_le_mul h1 h2
    rw [one_mul] at h3
    omega
  | succ fuel ih =>
    intro q i cs hgood hi hmu hnone
    simp only [tryMatch] at hnone
    split at hnone
    · exact Option.noConfusion hnone
    · rename_i hbnds
      have hb : i < text.length ∨ q.allowable.isEndOfString = true := by
        by_cases hlen : i < text.length
        · exact Or.inl hlen
        · right
          by_contra hend
          exact hbnds ⟨by omega, Or.inr (by simpa using hend)⟩
      split at hnone
      · cases hn : q.next with
        | none => rw [hn] at hnone; exact Option.noConfusion hnone
        | some nxt =>
          rw [hn] at hnone
          dsimp only at hnone
          cases hr : tryMatch fuel nxt text i cs with
          | none =>
            have hgnxt : goodP nxt = true := by
              have := goodP_next q hgood
              rw [hn] at this
              simpa [goodN] using this
            exact ih nxt i cs hgnxt hi
              (mu_child_le (le_refl i) hi hi (sizeOf_next_lt' hn) hmu) hr
          | some r =>
            rw [hr] at hnone
            cases r with
            | panic => exact Option.noConfusion hnone
            | ok rb re rcs =>
              cases rb with
              | true => exact Option.noConfusion hnone
              | false => exact tryAtom_total ih q i rcs hgood hb hi hmu hnone
      · exact tryAtom_total ih q i cs hgood hb hi hmu hnone

/-! ### The backreference comparison loop against the text slice. -/

theorem drop_cons_of_get? {text : List Char} {i : Nat} {c : Char}
    (h : text.get? i = some c) : text.drop i = c :: text.drop (i + 1) := by
  obtain ⟨hl, hg⟩ := List.get?_eq_some.mp h
  rw [List.drop_eq_getElem_cons hl]
  simp only [List.get_eq_getElem] at hg
  rw [hg]

theorem strSlice_nil (text : List Char) (i : Nat) : strSlice text i i = [] := by
  simp [strSlice]

theorem strSlice_cons {text : List Char} {i k : Nat} {c : Char}
    (h : text.get? i = some c) :
    strSlice text i (i + (k + 1)) = c :: strSlice text (i + 1) (i + 1 + k) := by
  unfold strSlice
  rw [drop_cons_of_get? h]
  have h1 : i + (k + 1) - i = k + 1 := by omega
  have h2 : i + 1 + k - (i + 1) = k := by omega
  rw [h1, h2, List.take_succ_cons]

theorem capLoop_slice :
    ∀ (cap text : List Char) (i : Nat), i + cap.length ≤ text.length →
      (strSlice text i (i + cap.length) = cap →
        capLoop cap text i = some (true, i + cap.length)) ∧
      (strSlice text i (i + cap.length) ≠ cap →
        ∃ j, capLoop cap text i = some (false, j)) := by
  intro cap
  induction cap with
  | nil =>
    intro text i _
    constructor
    · intro _
      simp [capLoop]
    · intro hne
      exact absurd (strSlice_nil text i) (by simpa using hne)
  | cons c rest ih =>
    intro text i hlen
    simp only [List.length_cons] at hlen
    have hlt : i < text.length := by omega
    obtain ⟨ch, hch⟩ : ∃ ch, text.get? i = some ch := by
      cases hg : text.get? i with
      | none => exact absurd (List.get?_eq_none.mp hg) (by omega)
      | some x => exact ⟨x, rfl⟩
    have hslice := strSlice_cons (k := rest.length) hch
    have hrec := ih text (i + 1) (by omega)
    constructor
    · intro heq
      simp only [List.length_cons] at heq ⊢
      rw [hslice] at heq
      injection heq with hhead htail
      simp only [capLoop, hch]
      rw [if_neg (by simp [hhead])]
      have := hrec.1 htail
      rw [this]
      congr 2
      omega
    · intro hne
      simp only [List.length_cons] at hne
      by_cases hcc : c = ch
      · subst hcc
        rw [hslice] at hne
        have htail : strSlice text (i + 1) (i + 1 + rest.length) ≠ rest := by
          intro ht; exact hne (by rw [ht])
        obtain ⟨j, hj⟩ := hrec.2 htail
        refine ⟨j, ?_⟩
        simp only [capLoop, hch]
        rw [if_neg (by simp)]
        exact hj
      · refine ⟨i, ?_⟩
        simp only [capLoop, hch]
        rw [if_pos (fun he => hcc he)]

/-! ### Evaluating single-atom searches (literal and end-anchor). -/

theorem lit_attempt (c : Char) (s : List Char) (i : Nat) (cs : CaptureState)
    (ch : Char) (hch : s.get? i = some ch) :
    tryMatch 1 (.mk (.CharSet [c]) .Once none 0) s i cs =
      if ([c] : List Char).contains ch then some (.ok true (i + 1) cs)
      else some (.ok false i cs) := by
  have hlt := get?_some_lt hch
  simp only [tryMatch]
  rw [if_neg (by rintro ⟨h1, -⟩; simp [Pattern.allowable] at h1; omega)]
  rw [if_neg (by simp [Pattern.rep])]
  simp only [tryAtom, Pattern.allowable]
  rw [hch]
  dsimp only
  by_cases hc : ([c] : List Char).contains ch
  · rw [if_neg (by simpa using hc), if_pos hc]
    simp only [afterConsume, Pattern.rep]
    rw [if_neg (by simp)]
    simp [contOrDone, Pattern.next]
  · rw [if_pos (by simpa using hc), if_neg hc]

theorem lit_matchFrom (c : Char) (s : List Char) :
    ∀ (k i : Nat) (cs : CaptureState), i + k = s.length →
      matchFrom 1 (.mk (.CharSet [c]) .Once none 0) s k i cs =
        some (.found ((s.drop i).contains c) cs) := by
  intro k
  induction k with
  | zero =>
    intro i cs hik
    have hi : i = s.length := by omega
    subst hi
    simp [matchFrom, List.drop_length]
  | succ k ih =>
    intro i cs hik
    have hlt : i < s.length := by omega
    obtain ⟨ch, hch⟩ : ∃ ch, s.get? i = some ch := by
      cases hg : s.get? i with
      | none => exact absurd (List.get?_eq_none.mp hg) (by omega)
      | some x => exact ⟨x, rfl⟩
    have hdrop := drop_cons_of_get? hch
    simp only [matchFrom, lit_attempt c s i cs ch hch]
    by_cases hcc : ([c] : List Char).contains ch
    · rw [if_pos hcc]
      have hchc : ch = c := by simpa using hcc
      subst hchc
      rw [hdrop]
      simp
    · rw [if_neg hcc]
      dsimp only
      rw [ih (i + 1) cs (by omega), hdrop]
      have hchc : ¬ ch = c := by simpa using hcc
      have hb : (c == ch) = false := beq_eq_false_iff_ne.mpr (Ne.symm hchc)
      have hb2 : (ch == c) = false := beq_eq_false_iff_ne.mpr hchc
      simp only [List.contains_cons, hb, hb2, Bool.false_or]

theorem groupLoop_congr {tm} {text : List Char} {self self2 : Pattern}
    (hc : self.capture_count = self2.capture_count)
    (hn : self.next = self2.next) :
    ∀ ps i cs, groupLoop tm self text ps i cs = groupLoop tm self2 text ps i cs := by
  intro ps
  induction ps with
  | nil => intro i cs; rfl
  | cons sub rest ih =>
    intro i cs
    simp only [groupLoop, hc, hn]
    cases tm sub i cs with
    | none => rfl
    | some r =>
      cases r with
      | panic => rfl
      | ok rb re rcs =>
        cases rb with
        | false => exact ih i rcs
        | true =>
          dsimp only
          cases self2.next with
          | none => rfl
          | some nxt =>
            dsimp only
            cases tm nxt re (rcs.insert self2.capture_count (strSlice text i re)) with
            | none => rfl
            | some r2 =>
              cases r2 with
              | panic => rfl
              | ok rb2 re2 rcs2 =>
                cases rb2 with
                | true => rfl
                | false => exact ih i rcs2

theorem tryMatch_group_eval (fuel : Nat) (text : List Char)
    (ps : List Pattern) (rep : OCCURENCE) (n : Option Pattern) (cc i : Nat)
    (cs : CaptureState) (hrep : rep ≠ .Optional) (hi : i < text.length) :
    tryMatch (fuel + 1) (.mk (.Group ps) rep n cc) text i cs =
      groupLoop (fun q a b => tryMatch fuel q text a b)
        (.mk (.Group ps) rep n cc) text ps i cs := by
  simp only [tryMatch]
  rw [if_neg (by rintro ⟨h1, -⟩; omega)]
  rw [if_neg (by simpa [Pattern.rep] using hrep)]
  simp only [tryAtom, Pattern.allowable]

theorem group_retry_step {fuel : Nat} {text : List Char} (self sub : Pattern)
    (rest : List Pattern) (nxt : Pattern) (i e j : Nat)
    (cs cs1 cs2 : CaptureState) (hn : self.next = some nxt)
    (hbody : tryMatch fuel sub text i cs = some (.ok true e cs1))
    (hcont : tryMatch fuel nxt text e
      (cs1.insert self.capture_count (strSlice text i e)) =
        some (.ok false j cs2)) :
    groupLoop (fun q a b => tryMatch fuel q text a b) self text
        (sub :: rest) i cs =
      groupLoop (fun q a b => tryMatch fuel q text a b) self text rest i cs2 := by
  simp only [groupLoop]
  rw [hbody]
  dsimp only
  rw [hn]
  dsimp only
  rw [hcont]

/-! ### Compiling a single literal character. -/

theorem parse_single_literal (c : Char) (cs : CaptureState)
    (h : c ∉ ['\\', '(', '[', '.', '^', '$']) :
    ∀ fuel, parse_pattern (fuel + 1) [c] cs =
      some (.ok (.mk (.CharSet [c]) .Once none 0) [] cs) := by
  intro fuel
  simp only [parse_pattern]
  split
  · simp at h
  · simp at h
  · simp at h
  · simp at h
  · simp at h
  · simp at h
  · rfl

theorem make_pattern_single_literal (c : Char)
    (h : c ∉ ['\\', '(', '[', '.', '^', '$']) :
    make_pattern [c] ⟨[], 1⟩ =
      some (.ok (.mk (.CharSet [c]) .Once none 0) [] ⟨[], 1⟩) := by
  show parse_pattern (3 + 1) [c] ⟨[], 1⟩ = _
  exact parse_single_literal c ⟨[], 1⟩ h 3

theorem scanCharset_no_close :
    ∀ (chars : List Char) (neg : Bool) (acc : List Char), ']' ∉ chars →
      scanCharset chars neg acc = (.Wildcard, []) := by
  intro chars
  induction chars with
  | nil => intro neg acc _; rfl
  | cons c tl ih =>
    intro neg acc h
    simp only [List.mem_cons, not_or] at h
    obtain ⟨h1, h2⟩ := h
    simp only [scanCharset]
    rw [if_neg (fun hc => h1 hc.symm)]
    split
    · exact ih true acc h2
    · exact ih neg _ h2

/-! ## The claims. -/

/-- Claim C1 (corrected) — counterexample.  On pattern `"(a|ab)c"` and
text `"abc"` at index 0: the first alternative's body matches (ending at
index 1, recording capture 1 = `"a"`), the Group's continuation `c` then
fails at index 1 — and yet the whole Group node succeeds at index 0
(ending at 3): the engine went on to try the second alternative after
the first one's continuation failed, contradicting the claim that the
whole Group node fails at that index with no further alternatives
tried. -/
theorem C1_counterexample :
    make_pattern "(a|ab)c".toList ⟨[], 1⟩ = some (.ok c1group [] ⟨[], 2⟩) ∧
    tryMatch 10 c1alt1 "abc".toList 0 ⟨[], 2⟩ = some (.ok true 1 ⟨[], 2⟩) ∧
    tryMatch 10 c1cont "abc".toList 1 ⟨[(1, ['a'])], 2⟩ =
      some (.ok false 1 ⟨[(1, ['a'])], 2⟩) ∧
    tryMatch 10 c1group "abc".toList 0 ⟨[], 2⟩ =
      some (.ok true 3 ⟨[(1, ['a', 'b']), (1, ['a'])], 2⟩) :=
  ⟨rfl, rfl, rfl, rfl⟩

/-- Claim C1 (corrected) — amended: when an alternative's body matches
but the Group's continuation then fails, the remaining alternatives are
still tried, with the capture-state mutations of the failed attempt
retained: the Group node behaves exactly like the same Group with its
first alternative removed, started in the post-failure capture state.
Concretely, `search(compile("(a|ab)c"), "abc")` succeeds via the second
alternative. -/
theorem C1_amended_group_retry :
    (∀ (fuel : Nat) (text : List Char) (sub : Pattern) (rest : List Pattern)
      (rep : OCCURENCE) (nxt : Pattern) (cc i e j : Nat)
      (cs cs1 cs2 : CaptureState),
      rep ≠ .Optional → i < text.length →
      tryMatch fuel sub text i cs = some (.ok true e cs1) →
      tryMatch fuel nxt text e (cs1.insert cc (strSlice text i e)) =
        some (.ok false j cs2) →
      tryMatch (fuel + 1) (.mk (.Group (sub :: rest)) rep (some nxt) cc)
          text i cs =
        tryMatch (fuel + 1) (.mk (.Group rest) rep (some nxt) cc)
          text i cs2) ∧
    srBool (match_string 20 "abc".toList "(a|ab)c".toList) = some true := by
  constructor
  · intro fuel text sub rest rep nxt cc i e j cs cs1 cs2 hrep hi hbody hcont
    rw [tryMatch_group_eval fuel text (sub :: rest) rep (some nxt) cc i cs hrep hi]
    rw [tryMatch_group_eval fuel text rest rep (some nxt) cc i cs2 hrep hi]
    rw [group_retry_step (.mk (.Group (sub :: rest)) rep (some nxt) cc)
      sub rest nxt i e j cs cs1 cs2 rfl hbody hcont]
    exact @groupLoop_congr (fun q a b => tryMatch fuel q text a b) text
      (.mk (.Group (sub :: rest)) rep (some nxt) cc)
      (.mk (.Group rest) rep (some nxt) cc) rfl rfl rest i cs2
  · rfl

/-- Claim C1 — witness for the amended theorem at the concrete inputs of
the counterexample. -/
theorem C1_witness :
    (OCCURENCE.Once ≠ OCCURENCE.Optional) ∧ (0 < "abc".toList.length) ∧
    tryMatch 10 c1alt1 "abc".toList 0 ⟨[], 2⟩ = some (.ok true 1 ⟨[], 2⟩) ∧
    tryMatch 10 c1cont "abc".toList 1 ⟨[(1, ['a'])], 2⟩ =
      some (.ok false 1 ⟨[(1, ['a'])], 2⟩) ∧
    tryMatch 11 (.mk (.Group [c1alt1, c1alt2]) .Once (some c1cont) 1)
        "abc".toList 0 ⟨[], 2⟩ =
      tryMatch 11 (.mk (.Group [c1alt2]) .Once (some c1cont) 1)
        "abc".toList 0 ⟨[(1, ['a'])], 2⟩ :=
  ⟨by decide, by decide, rfl, rfl,
    C1_amended_group_retry.1 10 "abc".toList c1alt1 [c1alt2] .Once c1cont 1 0 1 1
      ⟨[], 2⟩ ⟨[], 2⟩ ⟨[(1, ['a'])], 2⟩ (by decide) (by decide) rfl rfl⟩

/-- Claim C2 (code_bug).  The backreference comparison loop advances the
index once per captured character without re-checking bounds, so it does
read past the end of the text: on pattern `"(aa)\1"` and input `"aaa"`,
the group captures `"aa"`, the backreference node is entered at index 2,
the first comparison succeeds moving the index to 3 = length, and the
second comparison evaluates `chars().nth(3).unwrap()` on `None` — the
whole search panics instead of failing.  The second conjunct isolates
the panicking backreference node in the state that search reaches. -/
theorem C2_backref_panic :
    match_string 20 "aaa".toList "(aa)\\1".toList = some .panic ∧
    tryMatch 5 (.mk (.Capture 1) .Once none 0) "aaa".toList 2
      ⟨[(1, ['a', 'a'])], 2⟩ = some .panic :=
  ⟨rfl, rfl⟩

/-- Claim C3 (corrected) — counterexample: on the pattern `"^+"` (a
OneOrMore anchor) and input `"a"`, `try_match` at index 0 exhausts even
500 units of fuel: each step consumes no character and re-invokes the
same node at index 0, so the recursion is not well-founded there. -/
theorem C3_counterexample :
    tryMatch 500 hatPlus "a".toList 0 ⟨[], 1⟩ = none :=
  hatPlus_diverges 500 "a".toList ⟨[], 1⟩ (by decide)

/-- Claim C3 (corrected) — amended: `"^+"` compiles to a OneOrMore
StartAnchor node on which `try_match` at index 0 of a nonempty line
diverges — no fuel bound is ever enough; termination does hold for every
pattern whose OneOrMore nodes sit on atoms that always consume (or on
groups, whose match arm returns before the OneOrMore step), with the
explicit fuel bound `(length + 1 - index) * sizeOf pattern`. -/
theorem C3_amended_termination :
    make_pattern "^+".toList ⟨[], 1⟩ = some (.ok hatPlus [] ⟨[], 1⟩) ∧
    (∀ (fuel : Nat) (text : List Char) (cs : CaptureState), text ≠ [] →
      tryMatch fuel hatPlus text 0 cs = none) ∧
    (∀ (text : List Char) (fuel : Nat) (p : Pattern) (i : Nat)
      (cs : CaptureState), goodP p = true → i ≤ text.length →
      (text.length + 1 - i) * sizeOf p ≤ fuel →
      tryMatch fuel p text i cs ≠ none) :=
  ⟨rfl, hatPlus_diverges, fun text fuel => tryMatch_total text fuel⟩

/-- Claim C3 — witness: divergence at fuel 9 on `"a"`, and termination
of `"\d+"`-style node on input `"1"` under the fuel bound. -/
theorem C3_witness :
    ("a".toList ≠ ([] : List Char) ∧
      tryMatch 9 hatPlus "a".toList 0 ⟨[], 1⟩ = none) ∧
    (goodP (.mk .Digit .OnceOrMore none 0) = true ∧
      ("1".toList.length + 1 - 0) * sizeOf (Pattern.mk .Digit .OnceOrMore none 0) ≤ 64 ∧
      tryMatch 64 (.mk .Digit .OnceOrMore none 0) "1".toList 0 ⟨[], 1⟩ ≠ none) :=
  ⟨⟨by decide, C3_amended_termination.2.1 9 "a".toList ⟨[], 1⟩ (by decide)⟩,
   ⟨by decide, by decide,
    C3_amended_termination.2.2 "1".toList 64 (.mk .Digit .OnceOrMore none 0) 0
      ⟨[], 1⟩ (by decide) (by decide) (by decide)⟩⟩

/-- Claim C6 (corrected) — counterexample: `"[ab"` has an unterminated
character class, yet compilation succeeds and silently produces the
default Wildcard atom (consuming the whole remainder of the pattern). -/
theorem C6_counterexample :
    make_pattern "[ab".toList ⟨[], 1⟩ =
      some (.ok (.mk .Wildcard .Once none 0) [] ⟨[], 1⟩) := rfl

/-- Claim C6 (corrected) — amended: for every pattern beginning with `[`
whose remainder has no `]`, compilation silently yields the single
default Wildcard node (the scan consumes everything after the `[`),
rather than failing with a ParseError. -/
theorem C6_amended_unterminated_charset :
    ∀ (chars : List Char) (cs : CaptureState) (fuel : Nat), ']' ∉ chars →
      parse_pattern (fuel + 1) ('[' :: chars) cs =
        some (.ok (.mk .Wildcard .Once none 0) [] cs) := by
  intro chars cs fuel h
  simp only [parse_pattern]
  rw [scanCharset_no_close chars false [] h]
  rfl

/-- Claim C6 — witness at `"[ab"`. -/
theorem C6_witness :
    (']' ∉ "ab".toList) ∧
    parse_pattern 6 ('[' :: "ab".toList) ⟨[], 1⟩ =
      some (.ok (.mk .Wildcard .Once none 0) [] ⟨[], 1⟩) :=
  ⟨by decide, C6_amended_unterminated_charset "ab".toList ⟨[], 1⟩ 5 (by decide)⟩

/-- Claim C7 (corrected) — counterexample: a backreference whose
captured string runs past the end of the text panics instead of failing
locally: captured `"bb"` against text `"ab"` at index 1 — the text
starting at 1 (`"b"`) does not equal `"bb"`, so the claim requires a
local match failure, but the comparison loop reads position 2 of the
length-2 text. -/
theorem C7_counterexample :
    tryMatch 5 (.mk (.Capture 1) .Once none 0) "ab".toList 1
      ⟨[(1, ['b', 'b'])], 2⟩ = some .panic := rfl

/-- Claim C7 (corrected) — amended: a Backreference node looks up
`captures[group_index]`; if absent it fails locally.  If present and the
captured string fits in the remaining text, it succeeds iff the text
starting at `index` begins with the captured string, advancing by its
length (when the captured string overruns the text, the engine panics —
claim C2's bug — instead of failing).  The two concrete searches of the
claim hold. -/
theorem C7_amended_backreference :
    (∀ (fuel : Nat) (text : List Char) (i n : Nat) (cs : CaptureState),
      lookupCap cs.captured n = none →
      tryMatch (fuel + 1) (.mk (.Capture n) .Once none 0) text i cs =
        some (.ok false i cs)) ∧
    (∀ (fuel : Nat) (text cap : List Char) (i n : Nat) (cs : CaptureState),
      i < text.length → lookupCap cs.captured n = some cap →
      i + cap.length ≤ text.length →
      strSlice text i (i + cap.length) = cap →
      tryMatch (fuel + 1) (.mk (.Capture n) .Once none 0) text i cs =
        some (.ok true (i + cap.length) cs)) ∧
    (∀ (fuel : Nat) (text cap : List Char) (i n : Nat) (cs : CaptureState),
      i < text.length → lookupCap cs.captured n = some cap →
      i + cap.length ≤ text.length →
      strSlice text i (i + cap.length) ≠ cap →
      ∃ j, tryMatch (fuel + 1) (.mk (.Capture n) .Once none 0) text i cs =
        some (.ok false j cs)) ∧
    srBool (match_string 60 "cat and cat".toList "(\\w+) and \\1".toList) =
      some true ∧
    srBool (match_string 60 "cat and dog".toList "(\\w+) and \\1".toList) =
      some false := by
  refine ⟨?_, ?_, ?_, rfl, rfl⟩
  · intro fuel text i n cs hl
    simp only [tryMatch]
    split
    · rfl
    · rw [if_neg (by simp [Pattern.rep])]
      simp only [tryAtom, Pattern.allowable]
      rw [hl]
  · intro fuel text cap i n cs hi hl hfit hslice
    simp only [tryMatch]
    rw [if_neg (by rintro ⟨h1, -⟩; omega)]
    rw [if_neg (by simp [Pattern.rep])]
    simp only [tryAtom, Pattern.allowable]
    rw [hl]
    dsimp only
    rw [(capLoop_slice cap text i hfit).1 hslice]
    dsimp only
    simp only [afterConsume, Pattern.rep]
    rw [if_neg (by simp)]
    simp [contOrDone, Pattern.next]
  · intro fuel text cap i n cs hi hl hfit hne
    obtain ⟨j, hj⟩ := (capLoop_slice cap text i hfit).2 hne
    refine ⟨j, ?_⟩
    simp only [tryMatch]
    rw [if_neg (by rintro ⟨h1, -⟩; omega)]
    rw [if_neg (by simp [Pattern.rep])]
    simp only [tryAtom, Pattern.allowable]
    rw [hl]
    dsimp only
    rw [hj]

/-- Claim C7 — witness exercising all three quantified conjuncts. -/
theorem C7_witness :
    (lookupCap ([] : List (Nat × List Char)) 1 = none ∧
      tryMatch 4 (.mk (.Capture 1) .Once none 0) "x".toList 0 ⟨[], 1⟩ =
        some (.ok false 0 ⟨[], 1⟩)) ∧
    ((0 : Nat) < "ab".toList.length ∧
      strSlice "ab".toList 0 2 = ['a', 'b'] ∧
      tryMatch 4 (.mk (.Capture 1) .Once none 0) "ab".toList 0
        ⟨[(1, ['a', 'b'])], 2⟩ = some (.ok true 2 ⟨[(1, ['a', 'b'])], 2⟩)) ∧
    (strSlice "ab".toList 0 2 ≠ ['a', 'c'] ∧
      ∃ j, tryMatch 4 (.mk (.Capture 1) .Once none 0) "ab".toList 0
        ⟨[(1, ['a', 'c'])], 2⟩ = some (.ok false j ⟨[(1, ['a', 'c'])], 2⟩)) :=
  ⟨⟨rfl, C7_amended_backreference.1 3 "x".toList 0 1 ⟨[], 1⟩ rfl⟩,
   ⟨by decide, by decide,
     C7_amended_backreference.2.1 3 "ab".toList ['a', 'b'] 0 1
       ⟨[(1, ['a', 'b'])], 2⟩ (by decide) rfl (by decide) (by decide)⟩,
   ⟨by decide,
     C7_amended_backreference.2.2.1 3 "ab".toList ['a', 'c'] 0 1
       ⟨[(1, ['a', 'c'])], 2⟩ (by decide) rfl (by decide) (by decide)⟩⟩

/-- Claim C8 (confirmed).  No operation ever removes or clears a capture
entry during matching: every completed `try_match` call, and every run
of the start-offset loop, only grows the set of captured group indices
(a later capture of the same index may overwrite the value), so an entry
recorded during a failed attempt at an earlier start offset is still
present in every subsequent attempt sharing the same CaptureState. -/
theorem C8_capture_monotone :
    (∀ (fuel : Nat) (p : Pattern) (text : List Char) (i : Nat)
      (cs : CaptureState) (b : Bool) (j : Nat) (cs2 : CaptureState),
      tryMatch fuel p text i cs = some (.ok b j cs2) →
      ∀ k, (lookupCap cs.captured k).isSome →
        (lookupCap cs2.captured k).isSome) ∧
    (∀ (fuel : Nat) (p : Pattern) (text : List Char) (k i : Nat)
      (cs : CaptureState) (b : Bool) (cs2 : CaptureState),
      matchFrom fuel p text k i cs = some (.found b cs2) →
      ∀ n, (lookupCap cs.captured n).isSome →
        (lookupCap cs2.captured n).isSome) :=
  ⟨fun fuel p text i cs b j cs2 h => tryMatch_caps text fuel p i cs b j cs2 h,
   fun fuel p text k i cs b cs2 h => matchFrom_caps fuel p text k i cs b cs2 h⟩

/-- Claim C8 — witness: a pre-existing entry for group 7 survives a
successful literal match. -/
theorem C8_witness :
    (tryMatch 1 (.mk (.CharSet ['a']) .Once none 0) "a".toList 0
        ⟨[(7, ['x'])], 1⟩ = some (.ok true 1 ⟨[(7, ['x'])], 1⟩)) ∧
    (lookupCap [(7, ['x'])] 7).isSome = true ∧
    (lookupCap [(7, ['x'])] 7).isSome = true :=
  ⟨rfl, by decide,
    C8_capture_monotone.1 1 (.mk (.CharSet ['a']) .Once none 0) "a".toList 0
      ⟨[(7, ['x'])], 1⟩ true 1 ⟨[(7, ['x'])], 1⟩ rfl 7 (by decide)⟩

/-- Claim C9 (confirmed).  For every single non-metacharacter `c` (any
character other than the parser's dispatch characters) and every string
`s`, searching `s` for the compiled single-character pattern `[c]`
returns exactly whether `s` contains `c` (with the capture state left
untouched). -/
theorem C9_literal_search :
    ∀ (c : Char) (s : List Char), c ∉ ['\\', '(', '[', '.', '^', '$'] →
      match_string 1 s [c] = some (.found (s.contains c) ⟨[], 1⟩) := by
  intro c s h
  unfold match_string
  rw [make_pattern_single_literal c h]
  show matchFrom 1 (.mk (.CharSet [c]) .Once none 0) s s.length 0 ⟨[], 1⟩ = _
  rw [lit_matchFrom c s s.length 0 ⟨[], 1⟩ (by omega)]
  rw [List.drop_zero]

/-- Claim C9 — witness at `c = 'z'`, `s = "xyz"`. -/
theorem C9_witness :
    ('z' ∉ ['\\', '(', '[', '.', '^', '$']) ∧
    match_string 1 "xyz".toList ['z'] =
      some (.found ("xyz".toList.contains 'z') ⟨[], 1⟩) :=
  ⟨by decide, C9_literal_search 'z' "xyz".toList (by decide)⟩

/-- Claim C10 (confirmed).  For every node whose atom is not EndAnchor,
`try_match` at index = text length returns false immediately — the
bounds check of step 1 runs before the Optional skip of step 2 — even
when the quantifier is Optional and skipping the atom would succeed; in
particular `"ab?"` does not match `"a"`. -/
theorem C10_bounds_before_optional :
    (∀ (fuel : Nat) (p : Pattern) (text : List Char) (cs : CaptureState),
      p.allowable.isEndOfString = false →
      tryMatch (fuel + 1) p text text.length cs =
        some (.ok false text.length cs)) ∧
    srBool (match_string 5 "a".toList "ab?".toList) = some false := by
  constructor
  · intro fuel p text cs h
    simp only [tryMatch]
    rw [if_pos ⟨le_refl text.length, Or.inr h⟩]
  · rfl

/-- Claim C10 — witness: a trailing optional literal at the end of the
text still fails. -/
theorem C10_witness :
    ((Pattern.mk (.CharSet ['b']) .Optional none 0).allowable.isEndOfString
      = false) ∧
    tryMatch 4 (.mk (.CharSet ['b']) .Optional none 0) "a".toList
        "a".toList.length ⟨[], 1⟩ =
      some (.ok false "a".toList.length ⟨[], 1⟩) :=
  ⟨by decide, C10_bounds_before_optional.1 3 (.mk (.CharSet ['b']) .Optional none 0)
    "a".toList ⟨[], 1⟩ (by decide)⟩

end GrepModel
